import Mathlib

/-!
Verification of the RESP codec, in-memory store and command dispatch of a
Redis-compatible TCP server written in Go.

The Go source is shallowly embedded: byte streams become `List Char` (the
code never splits multi-byte runes, so byte = char is faithful here), Go
maps become functions into `Option`, `time.Time` instants become `Int`,
and the parser's unbounded call-stack recursion is driven by an explicit
`fuel` argument counting the nesting depth still allowed; running out of
fuel is reported by the distinguished error `PErr.fuelOut`, which the Go
program cannot produce (its stack is unbounded), so every theorem states
the fuel it needs explicitly.
-/

namespace Resp

/-- Decoded RESP value. Mirrors the dynamic `interface` values the Go
parser produces: Go `nil` (null bulk string and null array both decode to
it), `string`, `int64`, `[]interface` nested arrays. -/
inductive GoVal : Type where
  | nil : GoVal
  | str : String → GoVal
  | int : Int → GoVal
  | arr : List GoVal → GoVal
  deriving Repr

/-- Parse errors. `eof` models an `io` read falling short, `unknownType`
models the `unknown RESP type` error of `Parser.Parse`, `badInt` a
`strconv.ParseInt` failure, `negCount` the runtime panic of `make` with a
negative size (length below -1), and `fuelOut` is the embedding artifact
for exceeding the modelled recursion depth. -/
inductive PErr : Type where
  | eof : PErr
  | unknownType : Char → PErr
  | badInt : PErr
  | negCount : PErr
  | fuelOut : PErr
  deriving Repr, DecidableEq

/-- Numeric value of a decimal digit character, `none` on other chars. -/
def digitVal (c : Char) : Option Nat :=
  if '0' ≤ c ∧ c ≤ '9' then some (c.toNat - '0'.toNat) else none

/-- Fold decimal digits left to right onto an accumulator. -/
def parseDigitsAux : List Char → Nat → Option Nat
  | [], acc => some acc
  | c :: cs, acc =>
    match digitVal c with
    | some d => parseDigitsAux cs (acc * 10 + d)
    | none => none

/-- A non-empty all-digit run parsed as a natural number. -/
def parseDigitsGo (l : List Char) : Option Nat :=
  if l = [] then none else parseDigitsAux l 0

/-- Model of Go `strconv.ParseInt(s, 10, 64)` (also `strconv.Atoi` on
64-bit platforms): optional sign, non-empty decimal digits, signed 64-bit
range check; every failure (including range overflow) is `none`. -/
def parseIntGo (l : List Char) : Option Int :=
  match l with
  | [] => none
  | c :: cs =>
    if c = '-' then
      (parseDigitsGo cs).bind fun n =>
        if (n : Int) ≤ 9223372036854775808 then some (-(n : Int)) else none
    else if c = '+' then
      (parseDigitsGo cs).bind fun n =>
        if (n : Int) ≤ 9223372036854775807 then some ((n : Int)) else none
    else
      (parseDigitsGo (c :: cs)).bind fun n =>
        if (n : Int) ≤ 9223372036854775807 then some ((n : Int)) else none

/-- Decimal digit character for a value below ten. -/
def digitChar (d : Nat) : Char := Char.ofNat ('0'.toNat + d)

/-- Decimal digits with explicit structural fuel (any fuel above the
number itself is enough). -/
def natDigitsAux : Nat → Nat → List Char
  | 0, _ => []
  | fuel + 1, n =>
    if n < 10 then [digitChar n]
    else natDigitsAux fuel (n / 10) ++ [digitChar (n % 10)]

/-- Decimal digits of a natural number, most significant first. -/
def natDigits (n : Nat) : List Char := natDigitsAux (n + 1) n

/-- Model of Go `fmt.Sprintf` with the decimal verb, as used by the RESP
writer for lengths and integers. -/
def formatInt (i : Int) : List Char :=
  if i < 0 then '-' :: natDigits i.natAbs else natDigits i.natAbs

/-- Split the input at the first newline: the part before it and the part
after it.  `none` when no newline is present (the Go `ReadString`
returns an error then). -/
def splitLine : List Char → Option (List Char × List Char)
  | [] => none
  | c :: cs =>
    if c = '\n' then some ([], cs)
    else
      match splitLine cs with
      | some (l, r) => some (c :: l, r)
      | none => none

/-- Strip one trailing carriage return, mirroring the Go `readLine`
helper after it has dropped the newline itself. -/
def stripCR (l : List Char) : List Char :=
  if l.getLast? = some '\r' then l.dropLast else l

/-- Model of `Parser.readLine`: read through the first newline, then trim
the line ending. -/
def readLineGo (input : List Char) : Except PErr (List Char × List Char) :=
  match splitLine input with
  | none => .error .eof
  | some (l, r) => .ok (stripCR l, r)

/-- Model of `io.ReadFull` into a buffer of size `n`. -/
def readFull (n : Nat) (input : List Char) : Except PErr (List Char × List Char) :=
  if input.length < n then .error .eof else .ok (input.take n, input.drop n)

/-- Model of `Parser.readBulkString`: length line, then exactly
`length + 2` bytes of which the trailing two are dropped unchecked.
Go panics on a length below -1 when slicing with a negative index; the
model reports that as `negCount`. -/
def readBulk (input : List Char) : Except PErr (GoVal × List Char) :=
  match readLineGo input with
  | .error e => .error e
  | .ok (l, r) =>
    match parseIntGo l with
    | none => .error .badInt
    | some len =>
      if len = -1 then .ok (.nil, r)
      else if len < -1 then .error .negCount
      else
        match readFull (len + 2).toNat r with
        | .error e => .error e
        | .ok (buf, r') => .ok (.str (String.mk (buf.take len.toNat)), r')

/-- Model of `Parser.readSimpleString`: a line as a string value. -/
def readSimple (input : List Char) : Except PErr (GoVal × List Char) :=
  match readLineGo input with
  | .error e => .error e
  | .ok (l, r) => .ok (.str (String.mk l), r)

/-- Model of `Parser.readInteger`: a line fed to `strconv.ParseInt`. -/
def readInteger (input : List Char) : Except PErr (GoVal × List Char) :=
  match readLineGo input with
  | .error e => .error e
  | .ok (l, r) =>
    match parseIntGo l with
    | none => .error .badInt
    | some i => .ok (.int i, r)

/-- The element loop of `Parser.readArray`: `n` recursive `Parse` calls,
one call-stack level deeper than the array header; the nested parser is
passed in as `p`. -/
def parseElems (p : List Char → Except PErr (GoVal × List Char)) :
    Nat → List Char → Except PErr (List GoVal × List Char)
  | 0, input => .ok ([], input)
  | n + 1, input =>
    match p input with
    | .error e => .error e
    | .ok (v, r) =>
      match parseElems p n r with
      | .error e => .error e
      | .ok (vs, r') => .ok (v :: vs, r')

/-- Model of `Parser.readArray`: count line, `-1` as the null array, a
negative count panicking in `make` (modelled as `negCount`), otherwise
`count` recursively parsed elements. -/
def readArray (p : List Char → Except PErr (GoVal × List Char))
    (input : List Char) : Except PErr (GoVal × List Char) :=
  match readLineGo input with
  | .error e => .error e
  | .ok (l, r) =>
    match parseIntGo l with
    | none => .error .badInt
    | some count =>
      if count = -1 then .ok (.nil, r)
      else if count < 0 then .error .negCount
      else
        match parseElems p count.toNat r with
        | .error e => .error e
        | .ok (vs, r') => .ok (.arr vs, r')

/-- One level of `Parser.Parse`: dispatch on the first byte.  The Go
switch has exactly the four cases below; every other byte (including the
`-` error type of the RESP specification) hits the default branch and
fails.  `p` is the parser used for nested array elements. -/
def parseStep (p : List Char → Except PErr (GoVal × List Char)) :
    List Char → Except PErr (GoVal × List Char)
  | [] => .error .eof
  | c :: rest =>
    if c = '+' then readSimple rest
    else if c = '$' then readBulk rest
    else if c = '*' then readArray p rest
    else if c = ':' then readInteger rest
    else .error (.unknownType c)

/-- Model of `Parser.Parse` at recursion depth at most `fuel`. -/
def Parse : Nat → List Char → Except PErr (GoVal × List Char)
  | 0, _ => .error .fuelOut
  | fuel + 1, input => parseStep (Parse fuel) input

/-- The RESP line terminator. -/
def crlf : List Char := ['\r', '\n']

/-- Model of `Writer.WriteSimpleString`. -/
def writeSimpleString (s : String) : List Char :=
  '+' :: s.toList ++ crlf

/-- Model of `Writer.WriteBulkString`, including the nil case. -/
def writeBulkString : Option String → List Char
  | none => '$' :: '-' :: '1' :: crlf
  | some s => '$' :: formatInt s.length ++ crlf ++ s.toList ++ crlf

/-- Model of `Writer.WriteInteger`. -/
def writeInteger (i : Int) : List Char :=
  ':' :: formatInt i ++ crlf

/-- Model of `Writer.WriteArray`: header then each element as a bulk
string. -/
def writeArray (xs : List String) : List Char :=
  '*' :: formatInt xs.length ++ crlf ++ (xs.map fun s => writeBulkString (some s)).flatten

/-- Modelled from the spec: the writer method `WriteNullArray` invoked by
`writeResponse` in `main.go` is absent from the available source; §4.2 of
the specification frames a nil array as a star, minus one and the line
terminator. -/
def writeNullArray : List Char := '*' :: '-' :: '1' :: crlf

/-- A RESP input of `d` nested single-element arrays around one bulk
string — the adversarial nesting shape. -/
def nestArrays : Nat → List Char
  | 0 => "$1\r\na\r\n".toList
  | d + 1 => "*1\r\n".toList ++ nestArrays d

/-- The value `nestArrays d` decodes to. -/
def nestVal : Nat → GoVal
  | 0 => .str "a"
  | d + 1 => .arr [nestVal d]

end Resp

namespace Store

/-- A suspended BLPOP caller, `store.BlockingWaiter`.  Go finds a waiter
inside several per-key queues through pointer identity; the model gives
each waiter a numeric identity instead.  The single-delivery channel is
modelled by the delivery component `notifyWaiters` returns, and the
`Timeout`/`StartTime` fields play no part in the operations verified
here. -/
structure Waiter where
  id : Nat
  keys : List String
  deriving Repr, DecidableEq

/-- The result record of a succeeding BLPOP, `store.BLPopResult`. -/
structure BLPopResult where
  key : String
  value : String
  deriving Repr, DecidableEq

/-- The shared `store.Store` state: the three Go maps as functions into
`Option` (a missing map entry is `none`). -/
structure GoStore where
  storage : String → Option String
  expireStorage : String → Option (String × Int)
  listStorage : String → Option (List String)
  waiters : String → Option (List Waiter)

/-- Write (or with `none` delete) one entry of the string map. -/
def setStr (s : GoStore) (k : String) (v : Option String) : GoStore :=
  { s with storage := fun k' => if k' = k then v else s.storage k' }

/-- Write (or with `none` delete) one entry of the TTL map. -/
def setExp (s : GoStore) (k : String) (v : Option (String × Int)) : GoStore :=
  { s with expireStorage := fun k' => if k' = k then v else s.expireStorage k' }

/-- Write (or with `none` delete) one entry of the list map. -/
def setList (s : GoStore) (k : String) (v : Option (List String)) : GoStore :=
  { s with listStorage := fun k' => if k' = k then v else s.listStorage k' }

/-- The waiter queue registered under a key; a missing entry reads as the
empty queue, as a Go map read does. -/
def queueOf (s : GoStore) (k : String) : List Waiter :=
  (s.waiters k).getD []

/-- Store a waiter queue under a key, deleting the map entry when the
queue is empty — `notifyWaiters` and `cleanupWaiters` both follow every
queue update with exactly that emptiness check. -/
def setQueue (s : GoStore) (k : String) (q : List Waiter) : GoStore :=
  { s with waiters := fun k' => if k' = k then (if q = [] then none else some q) else s.waiters k' }

/-- Model of `Store.SET` at instant `now`: with a `px` TTL the entry goes
to the TTL map and leaves the plain map, without one the other way
around. -/
def SET (s : GoStore) (now : Int) (key value : String) (px : Option Int) : GoStore :=
  match px with
  | some ms => setStr (setExp s key (some (value, now + ms))) key none
  | none => setExp (setStr s key (some value)) key none

/-- Model of `Store.GET` at instant `now`: the TTL map is consulted
first; an entry whose expiry lies strictly before `now`
(`obj.ExpireAt.Before(now)`) is deleted and reported missing. -/
def GET (s : GoStore) (now : Int) (key : String) : GoStore × Option String :=
  match s.expireStorage key with
  | some obj =>
    if obj.2 < now then (setExp s key none, none)
    else (s, some obj.1)
  | none =>
    match s.storage key with
    | some v => (s, some v)
    | none => (s, none)

/-- What `Store.LPOP` hands back: Go `nil`, a single value behind a
string pointer, or a slice. -/
inductive LPopRet : Type where
  | nil : LPopRet
  | one : String → LPopRet
  | many : List String → LPopRet
  deriving Repr, DecidableEq

/-- Model of `Store.LPOP`: without a count pop one leftmost value and
delete the key when that drains the list; with a count `c` pop
`min c len` leftmost values (none when `c ≤ 0`), deleting the key when
everything is removed. -/
def LPOP (s : GoStore) (key : String) (count : Option Int) : GoStore × LPopRet :=
  match s.listStorage key with
  | none =>
    match count with
    | none => (s, .nil)
    | some _ => (s, .many [])
  | some list =>
    if list.length = 0 then
      match count with
      | none => (s, .nil)
      | some _ => (s, .many [])
    else
      match count with
      | none =>
        match list with
        | [] => (s, .nil)
        | v :: rest =>
          if rest.length = 0 then (setList s key none, .one v)
          else (setList s key (some rest), .one v)
      | some c =>
        if c ≤ 0 then (s, .many [])
        else
          let removeCount : Int := min c (list.length : Int)
          let removed := list.take removeCount.toNat
          if (list.length : Int) ≤ removeCount then (setList s key none, .many removed)
          else (setList s key (some (list.drop removeCount.toNat)), .many removed)

/-- Model of `Store.LRANGE`'s body on one list value (`none` for a
missing key): normalize negative indices, clamp, and slice inclusively.
The Go slice `list[start : stop+1]` is `drop start` then
`take (stop+1-start)`. -/
def lrangeGo (ol : Option (List String)) (start stop : Int) : List String :=
  match ol with
  | none => []
  | some list =>
    let length : Int := list.length
    if length = 0 then []
    else
      let start1 := if start < 0 then length + start else start
      let stop1 := if stop < 0 then length + stop else stop
      let start2 := if start1 < 0 then 0 else start1
      if start2 ≥ length then []
      else
        let stop2 := if stop1 ≥ length then length - 1 else stop1
        if stop2 < start2 then []
        else (list.drop start2.toNat).take (stop2 + 1 - start2).toNat

/-- Model of `Store.LRANGE`. -/
def LRANGE (s : GoStore) (key : String) (start stop : Int) : List String :=
  lrangeGo (s.listStorage key) start stop

/-- The LRANGE contract as the specification words it: normalize
negative indices by adding the length, clamp the start into `[0, len]`
and the stop into `[-1, len-1]`, return empty when the start exceeds the
stop or the length or the list is missing, otherwise the inclusive
slice. -/
def lrangeSpec (ol : Option (List String)) (start stop : Int) : List String :=
  match ol with
  | none => []
  | some list =>
    let len : Int := list.length
    let s0 := if start < 0 then start + len else start
    let e0 := if stop < 0 then stop + len else stop
    let s1 := min (max s0 0) len
    let e1 := min (max e0 (-1)) (len - 1)
    if s1 > e1 ∨ s1 ≥ len then []
    else (list.drop s1.toNat).take (e1 + 1 - s1).toNat

/-- Model of `Store.LLEN`. -/
def LLEN (s : GoStore) (key : String) : Nat :=
  ((s.listStorage key).getD []).length

/-- Remove the first waiter with the given identity, mirroring the Go
slice-splice-and-break removal loops that compare pointers. -/
def removeFirstById : List Waiter → Nat → List Waiter
  | [], _ => []
  | w :: ws, i => if w.id = i then ws else w :: removeFirstById ws i

/-- The first removal loop of `notifyWaiters`: drop the woken waiter
from the queue of every key it watches. -/
def removeWaiterAll (s : GoStore) (ks : List String) (i : Nat) : GoStore :=
  ks.foldl (fun acc k' => setQueue acc k' (removeFirstById (queueOf acc k') i)) s

/-- The second removal loop of `notifyWaiters`: same removal, skipping
the key that was pushed. -/
def removeWaiterOthers (s : GoStore) (ks : List String) (i : Nat) (key : String) : GoStore :=
  ks.foldl
    (fun acc k' =>
      if k' = key then acc
      else setQueue acc k' (removeFirstById (queueOf acc k') i)) s

/-- Model of `Store.BLPOP`, the non-blocking fast path: scan the keys in
order and pop from the first list that yields a value. -/
def BLPOP : GoStore → List String → GoStore × Option BLPopResult
  | s, [] => (s, none)
  | s, k :: rest =>
    let r := LPOP s k none
    match r.2 with
    | .one v => (r.1, some ⟨k, v⟩)
    | _ => BLPOP r.1 rest

/-- Model of `Store.notifyWaiters` on a push to `key`: dequeue the head
waiter of the key's queue, remove it from the queue of every key it
watches, re-run the BLPOP fast path over its own keys and attempt to
deliver the outcome.  The delivery on the single-use channel is the
second component (waiter identity with the served key and value). -/
def notifyWaiters (s : GoStore) (key : String) : GoStore × Option (Nat × BLPopResult) :=
  match queueOf s key with
  | [] => (s, none)
  | w :: _ =>
    let s1 := removeWaiterAll s w.keys w.id
    let b := BLPOP s1 w.keys
    match b.2 with
    | some r => (removeWaiterOthers b.1 w.keys w.id key, some (w.id, r))
    | none => (b.1, none)

/-- Model of `Store.RPUSH`: append, store, wake. -/
def RPUSH (s : GoStore) (key : String) (values : List String) : GoStore × Nat :=
  let list := (s.listStorage key).getD []
  let newList := list ++ values
  let s1 := setList s key (some newList)
  ((notifyWaiters s1 key).1, newList.length)

/-- Model of `Store.LPUSH`: the reversed values in front of the existing
list, store, wake; the reported length is computed as
`len(values) + len(existingList)`. -/
def LPUSH (s : GoStore) (key : String) (values : List String) : GoStore × Nat :=
  let existingList := (s.listStorage key).getD []
  let newList := values.reverse ++ existingList
  let s1 := setList s key (some newList)
  ((notifyWaiters s1 key).1, values.length + existingList.length)

/-- The empty store, as `NewStore` builds it. -/
def emptyStore : GoStore :=
  { storage := fun _ => none
    expireStorage := fun _ => none
    listStorage := fun _ => none
    waiters := fun _ => none }

/-- How often a waiter identity occurs in a queue; the registry
invariant is that a waiter is registered at most once per key. -/
def countId (l : List Waiter) (i : Nat) : Nat :=
  l.countP fun w => w.id == i

/-- A store holding one TTL entry for key `k`: value `v`, expiring at
instant 5. -/
def boundaryStore : GoStore := setExp emptyStore "k" (some ("v", 5))

/-- A waiter with identity 1 watching keys `a` then `b`. -/
def wA : Waiter := ⟨1, ["a", "b"]⟩

/-- A store where both `a` and `b` hold one value and `wA` is registered
in both queues — the state right after a push to `b` with `wA` blocked
on `a` and `b`. -/
def sW : GoStore :=
  { storage := fun _ => none
    expireStorage := fun _ => none
    listStorage := fun k => if k = "a" then some ["x"] else if k = "b" then some ["y"] else none
    waiters := fun k => if k = "a" ∨ k = "b" then some [wA] else none }

end Store

namespace Handler

/-- The dynamic result a command handler returns to `writeResponse` in
`main.go`: Go `nil`, a plain string, an int, a string slice, or the
`*handler.NullArray` marker. -/
inductive HVal : Type where
  | hnil : HVal
  | hstr : String → HVal
  | hint : Int → HVal
  | harr : List String → HVal
  | hnullArray : HVal
  deriving Repr, DecidableEq

/-- The error values the handlers return:
`WrongNumberOfArgumentsError` and `InvalidArgumentError`, with the
message their `Error()` methods render. -/
inductive HErr : Type where
  | wrongArity : String → HErr
  | invalidArg : String → HErr
  deriving Repr, DecidableEq

/-- Model of `strconv.Atoi`. -/
def atoiGo (s : String) : Option Int := Resp.parseIntGo s.toList

/-- Model of `EchoHandler.Execute`: the first argument echoed back as a
plain string result. -/
def echoExecute (args : List String) : Except HErr HVal :=
  match args with
  | [] => .error (.wrongArity "echo")
  | a :: _ => .ok (.hstr a)

/-- Model of `PingHandler.Execute`. -/
def pingExecute (args : List String) : Except HErr HVal :=
  match args with
  | [] => .ok (.hstr "PONG")
  | a :: _ => .ok (.hstr a)

/-- Model of `BLPopHandler.Execute`.  The arity check, the `Atoi` parse
of the trailing timeout and the negativity check are taken from the
source; the suspension inside `Store.BLPOPBlocking` is not shallowly
embeddable, so its eventual outcome (a result, or `none` after the
deadline passed) enters as the oracle `blockResult`.  On `none` the
handler returns the Go literal `nil, nil`. -/
def blpopExecute (args : List String) (blockResult : Option Store.BLPopResult) :
    Except HErr HVal :=
  if args.length < 2 then .error (.wrongArity "blpop")
  else
    match atoiGo (args.getLastD "") with
    | none => .error (.invalidArg "timeout is not a float or out of range")
    | some t =>
      if t < 0 then .error (.invalidArg "timeout is negative")
      else
        match blockResult with
        | some r => .ok (.harr [r.key, r.value])
        | none => .ok .hnil

/-- Model of `writeResponse` in `main.go`: choose the RESP framing from
the dynamic type of the handler result; plain strings become simple
strings exactly when they are `OK` or `PONG` and bulk strings
otherwise. -/
def writeResponseGo : HVal → List Char
  | .hnil => Resp.writeBulkString none
  | .hstr v =>
    if v = "OK" ∨ v = "PONG" then Resp.writeSimpleString v
    else Resp.writeBulkString (some v)
  | .hint i => Resp.writeInteger i
  | .harr xs => Resp.writeArray xs
  | .hnullArray => Resp.writeNullArray

end Handler

namespace Resp

/-- Claim C3 counterexample: a stream whose first byte is the minus sign
does not parse successfully as an Error value; `Parser.Parse` rejects it
through its default branch with the unknown-RESP-type protocol error
(the fuel of 32 is ample; the failure happens at the very first
byte). -/
theorem parse_error_byte_counterexample :
    Parse 32 ("-ERR unknown command\r\n".toList) = .error (.unknownType '-') := rfl

/-- Claim C3 (amended): the first byte is interpreted as one of exactly
four type bytes — plus for SimpleString, dollar for BulkString, star for
Array, colon for Integer — each dispatching to the corresponding reader,
and any other first byte (the minus of the RESP Error type included)
makes `Parse` fail with the unknown-type protocol error. -/
theorem parse_dispatch (fuel : Nat) (c : Char) (rest : List Char) :
    (c ≠ '+' → c ≠ '$' → c ≠ '*' → c ≠ ':' →
      Parse (fuel + 1) (c :: rest) = .error (.unknownType c)) ∧
    Parse (fuel + 1) ('+' :: rest) = readSimple rest ∧
    Parse (fuel + 1) ('$' :: rest) = readBulk rest ∧
    Parse (fuel + 1) ('*' :: rest) = readArray (Parse fuel) rest ∧
    Parse (fuel + 1) (':' :: rest) = readInteger rest := by
  refine ⟨fun h1 h2 h3 h4 => ?_, rfl, rfl, rfl, rfl⟩
  show parseStep (Parse fuel) (c :: rest) = .error (.unknownType c)
  simp only [parseStep]
  rw [if_neg h1, if_neg h2, if_neg h3, if_neg h4]

theorem parse_dispatch_witness :
    Parse 1 ['!'] = .error (.unknownType '!') :=
  (parse_dispatch 0 '!' []).1 (by decide) (by decide) (by decide) (by decide)

set_option maxRecDepth 20000 in
/-- Claim C4 counterexample: an input whose arrays nest 40 deep — well
beyond the claimed limit of 32 — parses successfully to its value
instead of failing with a protocol error. -/
theorem parse_deep_nesting_counterexample :
    Parse 64 (nestArrays 40) = .ok (nestVal 40, []) := rfl

/-- Claim C4 (amended): the parser imposes no recursion-depth limit at
all; for every depth `d`, the input of `d` nested arrays parses
successfully (the fuel argument is the embedding of the unbounded Go
call stack, and depth `d` consumes exactly `d + 2` stack frames). -/
theorem parse_no_depth_limit (d : Nat) :
    Parse (d + 2) (nestArrays d) = .ok (nestVal d, []) := by
  induction d with
  | zero => rfl
  | succ d ih =>
    have h1 : parseElems (Parse (d + 2)) 1 (nestArrays d) = .ok ([nestVal d], []) := by
      show (match Parse (d + 2) (nestArrays d) with
        | Except.error e => Except.error e
        | Except.ok (v, r) =>
          match parseElems (Parse (d + 2)) 0 r with
          | Except.error e => Except.error e
          | Except.ok (vs, r') => Except.ok (v :: vs, r')) = .ok ([nestVal d], [])
      rw [ih]
      rfl
    show (match parseElems (Parse (d + 2)) 1 (nestArrays d) with
      | Except.error e => Except.error e
      | Except.ok (vs, r') => Except.ok (GoVal.arr vs, r')) = .ok (.arr [nestVal d], [])
    rw [h1]

theorem parseDigitsAux_append (xs ys : List Char) (acc : Nat) :
    parseDigitsAux (xs ++ ys) acc =
      match parseDigitsAux xs acc with
      | some m => parseDigitsAux ys m
      | none => none := by
  induction xs generalizing acc with
  | nil => rfl
  | cons c cs ih =>
    simp only [List.cons_append, parseDigitsAux]
    cases digitVal c with
    | none => rfl
    | some d => exact ih _

theorem digitVal_digitChar (d : Nat) (h : d < 10) : digitVal (digitChar d) = some d := by
  interval_cases d <;> decide

theorem digitChar_ne (d : Nat) (h : d < 10) :
    digitChar d ≠ '\n' ∧ digitChar d ≠ '-' ∧ digitChar d ≠ '+' := by
  interval_cases d <;> decide

theorem natDigitsAux_fuel (f1 f2 n : Nat) (h1 : n < f1) (h2 : n < f2) :
    natDigitsAux f1 n = natDigitsAux f2 n := by
  induction f1 generalizing f2 n with
  | zero => omega
  | succ f ih =>
    cases f2 with
    | zero => omega
    | succ f2' =>
      simp only [natDigitsAux]
      by_cases h : n < 10
      · simp [h]
      · simp only [if_neg h]
        have hd : n / 10 < n := Nat.div_lt_self (by omega) (by omega)
        rw [ih f2' (n / 10) (by omega) (by omega)]

theorem natDigits_eq (n : Nat) :
    natDigits n =
      if n < 10 then [digitChar n]
      else natDigits (n / 10) ++ [digitChar (n % 10)] := by
  show natDigitsAux (n + 1) n = _
  simp only [natDigitsAux]
  by_cases h : n < 10
  · simp [h]
  · simp only [if_neg h]
    have hd : n / 10 < n := Nat.div_lt_self (by omega) (by omega)
    rw [natDigitsAux_fuel n (n / 10 + 1) (n / 10) (by omega) (by omega)]
    rfl

theorem natDigits_ne_nil (n : Nat) : natDigits n ≠ [] := by
  rw [natDigits_eq]
  by_cases h : n < 10 <;> simp [h]

theorem mem_natDigits (n : Nat) : ∀ c ∈ natDigits n, ∃ d, d < 10 ∧ c = digitChar d := by
  induction n using Nat.strong_induction_on with
  | _ n ih =>
    rw [natDigits_eq]
    by_cases h : n < 10
    · simp only [if_pos h, List.mem_singleton]
      exact fun c hc => ⟨n, h, hc⟩
    · simp only [if_neg h, List.mem_append, List.mem_singleton]
      rintro c (hc | rfl)
      · exact ih (n / 10) (Nat.div_lt_self (by omega) (by omega)) c hc
      · exact ⟨n % 10, Nat.mod_lt _ (by omega), rfl⟩

theorem newline_not_mem_natDigits (n : Nat) : '\n' ∉ natDigits n := by
  intro h
  obtain ⟨d, hd, he⟩ := mem_natDigits n _ h
  exact (digitChar_ne d hd).1 he.symm

theorem newline_not_mem_formatInt (i : Int) : '\n' ∉ formatInt i := by
  unfold formatInt
  by_cases h : i < 0
  · simp only [if_pos h, List.mem_cons]
    rintro (he | hm)
    · exact absurd he (by decide)
    · exact newline_not_mem_natDigits _ hm
  · simp only [if_neg h]
    exact newline_not_mem_natDigits _

theorem parseDigitsAux_natDigits (n : Nat) : parseDigitsAux (natDigits n) 0 = some n := by
  induction n using Nat.strong_induction_on with
  | _ n ih =>
    rw [natDigits_eq]
    by_cases h : n < 10
    · simp only [if_pos h, parseDigitsAux, digitVal_digitChar n h]
      norm_num
    · simp only [if_neg h]
      rw [parseDigitsAux_append]
      rw [ih (n / 10) (Nat.div_lt_self (by omega) (by omega))]
      simp only [parseDigitsAux, digitVal_digitChar (n % 10) (Nat.mod_lt _ (by omega))]
      congr 1
      omega

theorem parseDigitsGo_natDigits (n : Nat) : parseDigitsGo (natDigits n) = some n := by
  unfold parseDigitsGo
  rw [if_neg (natDigits_ne_nil n)]
  exact parseDigitsAux_natDigits n

theorem parseIntGo_formatInt (i : Int) (hmin : -9223372036854775808 ≤ i)
    (hmax : i ≤ 9223372036854775807) : parseIntGo (formatInt i) = some i := by
  unfold formatInt
  by_cases h : i < 0
  · simp only [if_pos h, parseIntGo, if_true]
    rw [parseDigitsGo_natDigits]
    simp only [Option.some_bind]
    rw [if_pos (by omega)]
    congr 1
    omega
  · simp only [if_neg h]
    obtain ⟨c, cs, hcc⟩ := List.exists_cons_of_ne_nil (natDigits_ne_nil i.natAbs)
    obtain ⟨d, hd, hc⟩ := mem_natDigits i.natAbs c (hcc ▸ List.mem_cons_self c cs)
    rw [hcc]
    simp only [parseIntGo]
    rw [if_neg (hc ▸ (digitChar_ne d hd).2.1), if_neg (hc ▸ (digitChar_ne d hd).2.2)]
    rw [← hcc, parseDigitsGo_natDigits]
    simp only [Option.some_bind]
    rw [if_pos (by omega)]
    congr 1
    omega

theorem splitLine_append (xs rest : List Char) (h : '\n' ∉ xs) :
    splitLine (xs ++ '\n' :: rest) = some (xs, rest) := by
  induction xs with
  | nil => simp [splitLine]
  | cons c cs ih =>
    have h1 : '\n' ≠ c := fun he => h (he ▸ List.mem_cons_self c cs)
    have h2 : '\n' ∉ cs := fun hm => h (List.mem_cons_of_mem c hm)
    simp only [List.cons_append, splitLine, List.append_eq]
    rw [if_neg (fun hc => h1 hc.symm)]
    rw [ih h2]

theorem readLineGo_crlf (xs rest : List Char) (h : '\n' ∉ xs) :
    readLineGo (xs ++ '\r' :: '\n' :: rest) = .ok (xs, rest) := by
  unfold readLineGo
  have h2 : '\n' ∉ xs ++ ['\r'] := by
    simp only [List.mem_append, List.mem_singleton]
    rintro (hm | he)
    · exact h hm
    · exact absurd he (by decide)
  rw [show xs ++ '\r' :: '\n' :: rest = (xs ++ ['\r']) ++ '\n' :: rest by simp]
  rw [splitLine_append _ _ h2]
  simp only [stripCR]
  rw [if_pos (by rw [List.getLast?_concat])]
  rw [List.dropLast_concat]

theorem mk_toList (s : String) : String.mk s.toList = s := rfl

theorem toList_length (s : String) : s.toList.length = s.length := rfl

theorem parse_writeSimpleString (fuel : Nat) (s : String) (rest : List Char)
    (hs : '\n' ∉ s.toList) :
    Parse (fuel + 1) (writeSimpleString s ++ rest) = .ok (.str s, rest) := by
  have hre : writeSimpleString s ++ rest = '+' :: (s.toList ++ '\r' :: '\n' :: rest) := by
    simp [writeSimpleString, crlf]
  rw [hre]
  show readSimple (s.toList ++ '\r' :: '\n' :: rest) = .ok (.str s, rest)
  simp only [readSimple, readLineGo_crlf s.toList rest hs, mk_toList]

theorem readFull_exact (l₁ l₂ : List Char) (n : Nat) (h : l₁.length = n) :
    readFull n (l₁ ++ l₂) = .ok (l₁, l₂) := by
  unfold readFull
  rw [if_neg (by simp only [List.length_append]; omega)]
  rw [← h, List.take_left, List.drop_left]

theorem parse_writeBulkString_some (fuel : Nat) (t : String) (rest : List Char)
    (ht : (t.length : Int) ≤ 9223372036854775807) :
    Parse (fuel + 1) (writeBulkString (some t) ++ rest) = .ok (.str t, rest) := by
  have hre : writeBulkString (some t) ++ rest =
      '$' :: (formatInt t.length ++ '\r' :: '\n' :: ((t.toList ++ ['\r', '\n']) ++ rest)) := by
    simp [writeBulkString, crlf]
  rw [hre]
  show readBulk (formatInt (t.length : Int) ++ '\r' :: '\n' :: ((t.toList ++ ['\r', '\n']) ++ rest)) =
    .ok (.str t, rest)
  have hbuf : (t.toList ++ ['\r', '\n']).length = ((t.length : Int) + 2).toNat := by
    simp only [List.length_append, toList_length, List.length_cons, List.length_nil]
    omega
  have htake : (t.toList ++ ['\r', '\n']).take ((t.length : Int)).toNat = t.toList := by
    have hn : ((t.length : Int)).toNat = t.toList.length := by
      rw [toList_length]; omega
    rw [hn, List.take_left]
  simp only [readBulk, readLineGo_crlf _ _ (newline_not_mem_formatInt _),
    parseIntGo_formatInt _ (by omega) ht,
    if_neg (show ¬((t.length : Int) = -1) by omega),
    if_neg (show ¬((t.length : Int) < -1) by omega),
    readFull_exact (t.toList ++ ['\r', '\n']) rest _ hbuf, htake, mk_toList]

theorem parse_writeInteger (fuel : Nat) (i : Int) (rest : List Char)
    (hmin : -9223372036854775808 ≤ i) (hmax : i ≤ 9223372036854775807) :
    Parse (fuel + 1) (writeInteger i ++ rest) = .ok (.int i, rest) := by
  have hre : writeInteger i ++ rest = ':' :: (formatInt i ++ '\r' :: '\n' :: rest) := by
    simp [writeInteger, crlf]
  rw [hre]
  show readInteger (formatInt i ++ '\r' :: '\n' :: rest) = .ok (.int i, rest)
  simp only [readInteger, readLineGo_crlf _ _ (newline_not_mem_formatInt i),
    parseIntGo_formatInt i hmin hmax]

theorem parse_writeArray_elems (fuel : Nat) (xs : List String) (rest : List Char)
    (hx : ∀ x ∈ xs, (x.length : Int) ≤ 9223372036854775807) :
    parseElems (Parse (fuel + 1)) xs.length
      ((xs.map fun s => writeBulkString (some s)).flatten ++ rest) =
      .ok (xs.map GoVal.str, rest) := by
  induction xs generalizing rest with
  | nil => rfl
  | cons x xs ih =>
    simp only [List.map_cons, List.flatten_cons, List.length_cons, List.append_assoc]
    simp only [parseElems,
      parse_writeBulkString_some fuel x _ (hx x (List.mem_cons_self x xs)),
      ih _ (fun y hy => hx y (List.mem_cons_of_mem x hy))]

theorem parse_writeArray (fuel : Nat) (xs : List String) (rest : List Char)
    (hx : ∀ x ∈ xs, (x.length : Int) ≤ 9223372036854775807)
    (hlen : (xs.length : Int) ≤ 9223372036854775807) :
    Parse (fuel + 2) (writeArray xs ++ rest) = .ok (.arr (xs.map GoVal.str), rest) := by
  have hre : writeArray xs ++ rest =
      '*' :: (formatInt xs.length ++ '\r' :: '\n' ::
        ((xs.map fun s => writeBulkString (some s)).flatten ++ rest)) := by
    simp [writeArray, crlf]
  rw [hre]
  show readArray (Parse (fuel + 1))
      (formatInt (xs.length : Int) ++ '\r' :: '\n' ::
        ((xs.map fun s => writeBulkString (some s)).flatten ++ rest)) =
    .ok (.arr (xs.map GoVal.str), rest)
  have hn : ((xs.length : Int)).toNat = xs.length := by omega
  simp only [readArray, readLineGo_crlf _ _ (newline_not_mem_formatInt _),
    parseIntGo_formatInt _ (by omega) hlen,
    if_neg (show ¬((xs.length : Int) = -1) by omega),
    if_neg (show ¬((xs.length : Int) < 0) by omega),
    hn, parse_writeArray_elems fuel xs rest hx]

/-- Claim C9: every value the writer can encode round-trips through the
parser: simple strings (whose payload carries no newline — otherwise
the encoding is not syntactically valid), bulk strings of any content,
the null bulk string, integers, the null array, and arrays of bulk
strings all parse back to the value they encode; the two nulls both
come back as the Go nil value they encode.  The length bounds are the
signed 64-bit ranges of Go ints, automatic in Go. -/
theorem resp_roundtrip (fuel : Nat) (s t : String) (i : Int) (xs : List String)
    (hs : '\n' ∉ s.toList)
    (ht : (t.length : Int) ≤ 9223372036854775807)
    (hmin : -9223372036854775808 ≤ i) (hmax : i ≤ 9223372036854775807)
    (hx : ∀ x ∈ xs, (x.length : Int) ≤ 9223372036854775807)
    (hlen : (xs.length : Int) ≤ 9223372036854775807) :
    Parse (fuel + 1) (writeSimpleString s) = .ok (.str s, []) ∧
    Parse (fuel + 1) (writeBulkString (some t)) = .ok (.str t, []) ∧
    Parse (fuel + 1) (writeBulkString none) = .ok (.nil, []) ∧
    Parse (fuel + 1) (writeInteger i) = .ok (.int i, []) ∧
    Parse (fuel + 1) writeNullArray = .ok (.nil, []) ∧
    Parse (fuel + 2) (writeArray xs) = .ok (.arr (xs.map GoVal.str), []) := by
  refine ⟨?_, ?_, rfl, ?_, rfl, ?_⟩
  · have h := parse_writeSimpleString fuel s [] hs
    rwa [List.append_nil] at h
  · have h := parse_writeBulkString_some fuel t [] ht
    rwa [List.append_nil] at h
  · have h := parse_writeInteger fuel i [] hmin hmax
    rwa [List.append_nil] at h
  · have h := parse_writeArray fuel xs [] hx hlen
    rwa [List.append_nil] at h

theorem resp_roundtrip_witness :
    Parse 1 (writeSimpleString "hey") = .ok (.str "hey", []) ∧
    Parse 1 (writeBulkString (some "a\rb")) = .ok (.str "a\rb", []) ∧
    Parse 1 (writeInteger (-42)) = .ok (.int (-42), []) ∧
    Parse 2 (writeArray ["a", "bc"]) = .ok (.arr [.str "a", .str "bc"], []) := by
  have h := resp_roundtrip 0 "hey" "a\rb" (-42) ["a", "bc"] (by decide) (by decide)
    (by decide) (by decide) (by decide) (by decide)
  exact ⟨h.1, h.2.1, h.2.2.2.1, h.2.2.2.2.2⟩

end Resp

namespace Store

/-- Claim C5 counterexample: at the boundary instant `now = expiry` the
entry is *not* treated as expired — `GET` returns the stored value and
leaves the entry in place, because the code tests
`obj.ExpireAt.Before(now)`, which is strict. -/
theorem GET_boundary_counterexample :
    (GET boundaryStore 5 "k").2 = some "v" ∧
    (GET boundaryStore 5 "k").2 ≠ none ∧
    (GET boundaryStore 5 "k").1.expireStorage "k" = some ("v", 5) :=
  ⟨rfl, by decide, rfl⟩

/-- Claim C5 (amended): for a key whose stored entry carries an expiry,
`GET` at an instant strictly after the expiry deletes the entry and
returns absent, while at any instant up to and including the expiry
itself it returns the stored value; entries without expiry are returned
unchanged. -/
theorem GET_expiry_spec (s : GoStore) (now : Int) (k v : String) (e : Int) :
    (s.expireStorage k = some (v, e) →
      (e < now → GET s now k = (setExp s k none, none)) ∧
      (now ≤ e → GET s now k = (s, some v))) ∧
    (s.expireStorage k = none → s.storage k = some v → GET s now k = (s, some v)) ∧
    (s.expireStorage k = none → s.storage k = none → GET s now k = (s, none)) := by
  refine ⟨fun h => ⟨fun hlt => ?_, fun hle => ?_⟩, fun h hv => ?_, fun h hv => ?_⟩
  · simp only [GET, h]
    rw [if_pos hlt]
  · simp only [GET, h]
    rw [if_neg (by omega)]
  · simp only [GET, h, hv]
  · simp only [GET, h, hv]

theorem GET_expiry_spec_witness :
    GET boundaryStore 6 "k" = (setExp boundaryStore "k" none, none) ∧
    GET boundaryStore 4 "k" = (boundaryStore, some "v") :=
  ⟨((GET_expiry_spec boundaryStore 6 "k" "v" 5).1 rfl).1 (by decide),
   ((GET_expiry_spec boundaryStore 4 "k" "v" 5).1 rfl).2 (by decide)⟩

/-- The full-range read: `LRANGE key 0 -1` of a non-empty stored list is
the whole list. -/
theorem lrangeGo_full (l : List String) (h : l ≠ []) : lrangeGo (some l) 0 (-1) = l := by
  have hlen : 0 < l.length := List.length_pos.mpr h
  simp only [lrangeGo]
  rw [if_neg (by omega)]
  norm_num
  simp [h]

/-- A push on a key nobody waits for leaves the wake-up procedure
inert. -/
theorem notifyWaiters_no_waiters (s : GoStore) (k : String) (h : queueOf s k = []) :
    notifyWaiters s k = (s, none) := by
  simp only [notifyWaiters, h]

/-- Claim C6: for any list stored at `k` (absent reading as empty) and
any non-empty value sequence, `LPUSH` reports the length sum and a
subsequent full-range `LRANGE` shows the reversed values in front of
the old list.  The no-waiter hypothesis keeps the wake-up procedure
from consuming the pushed values before the read. -/
theorem LPUSH_lrange_law (s : GoStore) (k : String) (L vs : List String)
    (hL : (s.listStorage k).getD [] = L) (hvs : vs ≠ [])
    (hw : queueOf s k = []) :
    (LPUSH s k vs).2 = vs.length + L.length ∧
    LRANGE (LPUSH s k vs).1 k 0 (-1) = vs.reverse ++ L := by
  constructor
  · simp only [LPUSH, hL]
  · have hs1 : queueOf (setList s k (some (vs.reverse ++ L))) k = [] := hw
    simp only [LPUSH, hL]
    rw [notifyWaiters_no_waiters _ _ hs1]
    simp only [LRANGE, setList, if_true]
    refine lrangeGo_full _ (fun hcon => hvs ?_)
    exact List.reverse_eq_nil_iff.mp (List.append_eq_nil.mp hcon).1

theorem LPUSH_lrange_law_witness :
    (LPUSH emptyStore "k" ["a", "b"]).2 = 2 ∧
    LRANGE (LPUSH emptyStore "k" ["a", "b"]).1 "k" 0 (-1) = ["b", "a"] :=
  LPUSH_lrange_law emptyStore "k" [] ["a", "b"] rfl (by decide) rfl

/-- Claim C7: for a stored list, `LPOP` with a non-positive count pops
nothing, with a positive count pops the leftmost `min count len`
values (the popped values in front of the remainder reconstruct the
original), and without a count pops the single head; whenever the pop
drains the list the key leaves the list map. -/
theorem LPOP_spec (s : GoStore) (k : String) (L : List String)
    (h : s.listStorage k = some L) (hL : L ≠ []) :
    (∀ c : Int, c ≤ 0 → LPOP s k (some c) = (s, .many [])) ∧
    (∀ c : Int, 0 < c →
      (LPOP s k (some c)).2 = .many (L.take (min c.toNat L.length)) ∧
      L.take (min c.toNat L.length) ++ L.drop (min c.toNat L.length) = L ∧
      (LPOP s k (some c)).1.listStorage k =
        (if L.length ≤ c.toNat then none else some (L.drop (min c.toNat L.length)))) ∧
    (∀ v t, L = v :: t →
      (LPOP s k none).2 = .one v ∧
      (LPOP s k none).1.listStorage k = (if t = [] then none else some t)) := by
  have hlen : L.length ≠ 0 := fun hc => hL (List.length_eq_zero.mp hc)
  refine ⟨fun c hc => ?_, fun c hc => ?_, fun v t hvt => ?_⟩
  · simp only [LPOP, h]
    rw [if_neg hlen, if_pos hc]
  · simp only [LPOP, h]
    rw [if_neg hlen, if_neg (by omega)]
    have hrc : (min c (L.length : Int)).toNat = min c.toNat L.length := by omega
    by_cases hd : L.length ≤ c.toNat
    · rw [if_pos (by omega)]
      refine ⟨by rw [hrc], List.take_append_drop _ _, ?_⟩
      rw [if_pos hd]
      simp [setList]
    · rw [if_neg (by omega)]
      refine ⟨by rw [hrc], List.take_append_drop _ _, ?_⟩
      rw [if_neg hd, hrc]
      simp [setList]
  · subst hvt
    simp only [LPOP, h]
    rw [if_neg hlen]
    by_cases ht : t = []
    · subst ht
      rw [if_pos rfl]
      exact ⟨rfl, by simp [setList]⟩
    · rw [if_neg (by simpa using ht)]
      refine ⟨rfl, ?_⟩
      rw [if_neg ht]
      simp [setList]

theorem LPOP_spec_witness :
    (LPOP (setList emptyStore "k" (some ["a", "b"])) "k" (some 5)).2 = .many ["a", "b"] :=
  ((LPOP_spec (setList emptyStore "k" (some ["a", "b"])) "k" ["a", "b"] rfl
    (by decide)).2.1 5 (by decide)).1

theorem queueOf_setQueue (s : GoStore) (k k' : String) (q : List Waiter) :
    queueOf (setQueue s k q) k' = if k' = k then q else queueOf s k' := by
  simp only [queueOf, setQueue]
  by_cases h : k' = k
  · rw [if_pos h, if_pos h]
    by_cases hq : q = []
    · rw [if_pos hq, hq]; rfl
    · rw [if_neg hq]; rfl
  · rw [if_neg h, if_neg h]

theorem LPOP_waiters (s : GoStore) (k : String) (c : Option Int) :
    (LPOP s k c).1.waiters = s.waiters := by
  unfold LPOP
  repeat' split
  all_goals try rfl
  all_goals (dsimp only; split <;> rfl)

theorem BLPOP_waiters (s : GoStore) (keys : List String) :
    (BLPOP s keys).1.waiters = s.waiters := by
  induction keys generalizing s with
  | nil => rfl
  | cons k rest ih =>
    simp only [BLPOP]
    split
    · exact LPOP_waiters s k none
    · rw [ih, LPOP_waiters]

theorem queueOf_BLPOP (s : GoStore) (keys : List String) (k' : String) :
    queueOf (BLPOP s keys).1 k' = queueOf s k' := by
  simp only [queueOf, BLPOP_waiters]

theorem LPOP_none_empty (s : GoStore) (k : String)
    (h : ((s.listStorage k).getD []).isEmpty = true) :
    LPOP s k none = (s, .nil) := by
  cases hm : s.listStorage k with
  | none => simp only [LPOP, hm]
  | some l =>
    rw [hm] at h
    simp only [Option.getD_some, List.isEmpty_iff] at h
    subst h
    simp only [LPOP, hm]
    rfl

theorem LPOP_none_cons (s : GoStore) (k v : String) (t : List String)
    (h : s.listStorage k = some (v :: t)) :
    LPOP s k none =
      ((if t.length = 0 then setList s k none else setList s k (some t)), .one v) := by
  simp only [LPOP, h]
  rw [if_neg (by simp)]
  split_ifs <;> rfl

theorem BLPOP_scan (s : GoStore) (keys : List String) (k₀ v : String) (t : List String)
    (hfind : keys.find? (fun k' => !((s.listStorage k').getD []).isEmpty) = some k₀)
    (hlist : s.listStorage k₀ = some (v :: t)) :
    (BLPOP s keys).2 = some ⟨k₀, v⟩ := by
  induction keys generalizing s with
  | nil => simp at hfind
  | cons k rest ih =>
    by_cases hk : ((s.listStorage k).getD []).isEmpty
    · have hfind' : rest.find? (fun k' => !((s.listStorage k').getD []).isEmpty) = some k₀ := by
        rwa [List.find?_cons_of_neg _ (by simp [hk])] at hfind
      simp only [BLPOP, LPOP_none_empty s k hk]
      exact ih s hfind' hlist
    · have hk0 : k = k₀ := by
        rw [List.find?_cons_of_pos _ (by simp [hk])] at hfind
        exact Option.some_inj.mp hfind
      subst hk0
      obtain ⟨v', t', hvt⟩ : ∃ v' t', s.listStorage k = some (v' :: t') := by
        cases hm : s.listStorage k with
        | none => rw [hm] at hk; simp at hk
        | some l =>
          cases l with
          | nil => rw [hm] at hk; simp at hk
          | cons a b => exact ⟨a, b, rfl⟩
      have hv : v' = v := by
        rw [hvt] at hlist
        exact (List.cons.injEq _ _ _ _ ▸ (Option.some_inj.mp hlist)).1
      subst hv
      simp only [BLPOP, LPOP_none_cons s k v' t' hvt]

theorem removeWaiterAll_listStorage (s : GoStore) (ks : List String) (i : Nat) :
    (removeWaiterAll s ks i).listStorage = s.listStorage := by
  induction ks generalizing s with
  | nil => rfl
  | cons a ks ih => exact ih _

theorem mem_removeFirstById {l : List Waiter} {i : Nat} {w : Waiter}
    (h : w ∈ removeFirstById l i) : w ∈ l := by
  induction l with
  | nil => simp [removeFirstById] at h
  | cons x xs ih =>
    simp only [removeFirstById] at h
    split_ifs at h with hx
    · exact List.mem_cons_of_mem x h
    · rcases List.mem_cons.mp h with rfl | h'
      · exact List.mem_cons_self _ _
      · exact List.mem_cons_of_mem x (ih h')

theorem countId_removeFirstById_le (l : List Waiter) (i : Nat) :
    countId (removeFirstById l i) i ≤ countId l i := by
  induction l with
  | nil => simp [removeFirstById]
  | cons x xs ih =>
    simp only [removeFirstById]
    split_ifs with hx
    · simp only [countId, List.countP_cons]
      omega
    · have hbeq : (x.id == i) = false := by simp [hx]
      simp only [countId, List.countP_cons, hbeq, if_false] at ih ⊢
      omega

theorem no_id_after_remove (l : List Waiter) (i : Nat) (h : countId l i ≤ 1) :
    ∀ w ∈ removeFirstById l i, w.id ≠ i := by
  induction l with
  | nil => simp [removeFirstById]
  | cons x xs ih =>
    simp only [removeFirstById]
    split_ifs with hx
    · have hbeq : (x.id == i) = true := by simp [hx]
      have h0 : countId xs i = 0 := by
        simp only [countId, List.countP_cons, hbeq, if_true] at h
        simp only [countId]
        omega
      intro w hw hwid
      have hpos : 0 < countId xs i := by
        simp only [countId]
        exact List.countP_pos_iff.mpr ⟨w, hw, by simp [hwid]⟩
      omega
    · intro w hw hwid
      rcases List.mem_cons.mp hw with rfl | hw'
      · exact hx hwid
      · refine ih ?_ w hw' hwid
        have hbeq : (x.id == i) = false := by simp [hx]
        simp only [countId, List.countP_cons, hbeq, if_false] at h
        simpa [countId] using h

theorem removeFirstById_absence (l : List Waiter) (i : Nat)
    (h : ∀ w ∈ l, w.id ≠ i) :
    ∀ w ∈ removeFirstById l i, w.id ≠ i :=
  fun w hw => h w (mem_removeFirstById hw)

theorem removeWaiterAll_absence (s : GoStore) (ks : List String) (i : Nat) (k' : String)
    (h : ∀ w ∈ queueOf s k', w.id ≠ i) :
    ∀ w ∈ queueOf (removeWaiterAll s ks i) k', w.id ≠ i := by
  induction ks generalizing s with
  | nil => exact h
  | cons a ks ih =>
    refine ih (setQueue s a (removeFirstById (queueOf s a) i)) ?_
    intro w hw
    rw [queueOf_setQueue] at hw
    by_cases ha : k' = a
    · rw [if_pos ha] at hw
      exact removeFirstById_absence _ _ (ha ▸ h) w hw
    · rw [if_neg ha] at hw
      exact h w hw

theorem removeWaiterAll_kills (s : GoStore) (ks : List String) (i : Nat)
    (huniq : ∀ k', countId (queueOf s k') i ≤ 1) :
    ∀ k' ∈ ks, ∀ w ∈ queueOf (removeWaiterAll s ks i) k', w.id ≠ i := by
  induction ks generalizing s with
  | nil => simp
  | cons a ks ih =>
    intro k' hk'
    have huniq1 : ∀ k'',
        countId (queueOf (setQueue s a (removeFirstById (queueOf s a) i)) k'') i ≤ 1 := by
      intro k''
      rw [queueOf_setQueue]
      by_cases h : k'' = a
      · rw [if_pos h]
        exact le_trans (countId_removeFirstById_le _ _) (huniq a)
      · rw [if_neg h]
        exact huniq k''
    rcases List.mem_cons.mp hk' with rfl | hk'
    · refine removeWaiterAll_absence _ ks i k' ?_
      intro w' hw'
      rw [queueOf_setQueue, if_pos rfl] at hw'
      exact no_id_after_remove _ _ (huniq k') w' hw'
    · exact ih _ huniq1 k' hk'

theorem removeWaiterOthers_absence (s : GoStore) (ks : List String) (i : Nat)
    (key k' : String) (h : ∀ w ∈ queueOf s k', w.id ≠ i) :
    ∀ w ∈ queueOf (removeWaiterOthers s ks i key) k', w.id ≠ i := by
  induction ks generalizing s with
  | nil => exact h
  | cons a ks ih =>
    refine ih (if a = key then s else setQueue s a (removeFirstById (queueOf s a) i)) ?_
    by_cases hak : a = key
    · rw [if_pos hak]; exact h
    · rw [if_neg hak]
      intro w hw
      rw [queueOf_setQueue] at hw
      by_cases ha : k' = a
      · rw [if_pos ha] at hw
        exact removeFirstById_absence _ _ (ha ▸ h) w hw
      · rw [if_neg ha] at hw
        exact h w hw

/-- Claim C1: a push to key `k` wakes the head waiter `W` of that key's
queue: `W` is removed from the queue of every key in `W.keys` (given
the registry invariant that a waiter sits at most once in any queue),
and the delivery re-runs the BLPOP fast path over `W.keys`, handing `W`
the head value `v` of the earliest key `k₀` of `W.keys` whose list is
non-empty — which need not be the pushed key `k` (the witness pushes to
`b` and is served from `a`). -/
theorem notifyWaiters_spec (s : GoStore) (k : String) (W : Waiter) (rest : List Waiter)
    (hq : queueOf s k = W :: rest)
    (huniq : ∀ k', countId (queueOf s k') W.id ≤ 1)
    (k₀ v : String) (t : List String)
    (hfind : W.keys.find? (fun k' => !((s.listStorage k').getD []).isEmpty) = some k₀)
    (hlist : s.listStorage k₀ = some (v :: t)) :
    (notifyWaiters s k).2 = some (W.id, ⟨k₀, v⟩) ∧
    ∀ k' ∈ W.keys, ∀ w ∈ queueOf (notifyWaiters s k).1 k', w.id ≠ W.id := by
  have hls : (removeWaiterAll s W.keys W.id).listStorage = s.listStorage :=
    removeWaiterAll_listStorage s W.keys W.id
  have hfind1 : W.keys.find?
      (fun k' => !(((removeWaiterAll s W.keys W.id).listStorage k').getD []).isEmpty) =
        some k₀ := by
    rw [hls]; exact hfind
  have hlist1 : (removeWaiterAll s W.keys W.id).listStorage k₀ = some (v :: t) := by
    rw [hls]; exact hlist
  have hb : (BLPOP (removeWaiterAll s W.keys W.id) W.keys).2 = some ⟨k₀, v⟩ :=
    BLPOP_scan _ _ _ _ _ hfind1 hlist1
  constructor
  · simp only [notifyWaiters, hq, hb]
  · intro k' hk' w hw
    simp only [notifyWaiters, hq, hb] at hw
    refine removeWaiterOthers_absence _ _ _ _ _ ?_ w hw
    intro w' hw'
    rw [queueOf_BLPOP] at hw'
    exact removeWaiterAll_kills s W.keys W.id huniq k' hk' w' hw'

theorem notifyWaiters_spec_witness :
    (notifyWaiters sW "b").2 = some (1, ⟨"a", "x"⟩) ∧
    ∀ k' ∈ wA.keys, ∀ w ∈ queueOf (notifyWaiters sW "b").1 k', w.id ≠ wA.id :=
  notifyWaiters_spec sW "b" wA [] rfl
    (by
      intro k'
      show countId ((sW.waiters k').getD []) wA.id ≤ 1
      simp only [sW]
      split_ifs <;> decide)
    "a" "x" [] rfl rfl

set_option linter.unnecessarySeqFocus false in
/-- Claim C8: the Go `LRANGE` body agrees with the specification's
description on every key state and every pair of signed indices —
normalize negatives by adding the length, clamp the start into
`[0, len]` and the stop into `[-1, len-1]`, return empty when the start
exceeds the stop or the length or the list is missing, otherwise the
inclusive slice. -/
theorem LRANGE_matches_spec (ol : Option (List String)) (start stop : Int) :
    lrangeGo ol start stop = lrangeSpec ol start stop := by
  cases ol with
  | none => rfl
  | some list =>
    simp only [lrangeGo, lrangeSpec]
    split_ifs <;>
      first
        | rfl
        | (exfalso; omega)
        | (congr 1 <;> first | omega | (congr 1 <;> first | rfl | omega))

end Store

namespace Handler

/-- Claim C2: on a served BLPOP the handler returns the `[key, value]`
pair, which `writeResponse` frames as an array of two bulk strings; but
on a timeout the handler returns Go `nil` — not the `NullArray` marker
its own tests expect — so the reply written to the client is the null
*bulk string* rather than the null array the `writeResponse`
`NullArray` arm (and the specification) prescribe. -/
theorem blpop_timeout_reply_is_null_bulk :
    blpopExecute ["nonexistent", "1"] none = .ok .hnil ∧
    blpopExecute ["nonexistent", "1"] none ≠ .ok .hnullArray ∧
    writeResponseGo .hnil = "$-1\r\n".toList ∧
    writeResponseGo .hnil ≠ Resp.writeNullArray ∧
    writeResponseGo .hnullArray = Resp.writeNullArray ∧
    (∀ r : Store.BLPopResult, blpopExecute ["q", "1"] (some r) = .ok (.harr [r.key, r.value])) ∧
    (∀ kk vv : String,
      writeResponseGo (.harr [kk, vv]) =
        Resp.writeArray [kk, vv]) :=
  ⟨rfl, by intro h; exact absurd (Except.ok.inj h) (by decide), rfl, by decide, rfl,
   fun r => rfl, fun kk vv => rfl⟩

/-- Claim C10: `writeResponse` frames a plain string result as a simple
string exactly when it equals `OK` or `PONG`, and as a bulk string
otherwise; hence `ECHO OK` is answered with the simple string framing
instead of the bulk string the per-command table prescribes. -/
theorem writeResponse_string_dispatch (v : String) :
    (v = "OK" ∨ v = "PONG" → writeResponseGo (.hstr v) = Resp.writeSimpleString v) ∧
    (v ≠ "OK" → v ≠ "PONG" → writeResponseGo (.hstr v) = Resp.writeBulkString (some v)) ∧
    echoExecute ["OK"] = .ok (.hstr "OK") ∧
    writeResponseGo (.hstr "OK") = Resp.writeSimpleString "OK" ∧
    writeResponseGo (.hstr "OK") ≠ Resp.writeBulkString (some "OK") := by
  refine ⟨fun h => ?_, fun h1 h2 => ?_, rfl, rfl, by decide⟩
  · simp only [writeResponseGo]
    rw [if_pos h]
  · simp only [writeResponseGo]
    rw [if_neg (by simp [h1, h2])]

theorem writeResponse_string_dispatch_witness :
    writeResponseGo (.hstr "OK") = Resp.writeSimpleString "OK" ∧
    writeResponseGo (.hstr "hello") = Resp.writeBulkString (some "hello") :=
  ⟨(writeResponse_string_dispatch "OK").1 (Or.inl rfl),
   (writeResponse_string_dispatch "hello").2.1 (by decide) (by decide)⟩

end Handler
